import Mathlib

/-!
Verification of the PharmCAT VCF preprocessing pipeline
(`src/scripts/PharmCAT_VCF_Preprocess.py` and
`src/scripts/vcf_preprocess_utilities.py`).

The Python code is a linear orchestration of `bcftools` and `tabix`
subprocesses.  We embed it shallowly:

* pure string manipulation (`os.path.split`, `str.split`, `'.'.join`,
  name construction) is translated directly, with Python `str.split`
  modelled character-by-character (`splitOnChar`) so that all
  definitions compute;
* each subprocess invocation is an event in an explicit trace, with an
  oracle assigning every call site an outcome (a return code, or a
  raised exception such as `FileNotFoundError`);
* the record-level semantics of the `bcftools` subcommands
  (`view -s S -U`, `annotate --rename-chrs`, `isec -c indels -C -w1`)
  is modelled on an explicit `VariantFile` data type, following the
  documentation of those commands quoted in the source comments;
* Python exceptions become an explicit `PyError` type.
-/

set_option autoImplicit false

namespace PharmCAT

/-- Python exceptions that the scripts can raise.  `indexError` models
`IndexError` from list indexing, `valueError` models `ValueError` from
`list.remove`, `inappropriateVCFSuffix` models the repository's typed
`Exceptions.InappropriateVCFSuffix`, `calledProcessError` models
`subprocess.CalledProcessError` raised by `subprocess.check_output`,
and `subprocessRaised` models an OS-level exception (e.g.
`FileNotFoundError`) raised while starting a subprocess. -/
inductive PyError
  | indexError
  | valueError
  | inappropriateVCFSuffix
  | calledProcessError
  | subprocessRaised
deriving DecidableEq

/-- Python `str.split(sep)` for a single-character separator, on the
character list of the string.  `"".split('.') = ['']`,
`"a..b".split('.') = ['a', '', 'b']`, exactly as in Python. -/
def splitOnChar (sep : Char) : List Char → List (List Char)
  | [] => [[]]
  | c :: rest =>
    match splitOnChar sep rest with
    | [] => [[c]]
    | h :: t => if c = sep then [] :: h :: t else (c :: h) :: t

/-- Python `sep.join(pieces)` for a single-character separator. -/
def intercalateChar (sep : Char) : List (List Char) → List Char
  | [] => []
  | [p] => p
  | p :: rest => p ++ sep :: intercalateChar sep rest

/-- Python `os.path.join(dir, name)` for POSIX paths (the scripts only
ever join a directory with a bare file name). -/
def joinPath (dir name : String) : String := dir ++ "/" ++ name

/-- Translation of `obtain_vcf_file_prefix` from
`vcf_preprocess_utilities.py` (renamed to `_stem` purely for Lean
naming reasons):

    vcf_file_full_name = os.path.split(path)[1].split('.')
    if (vcf_file_full_name[-2] == 'vcf') and (vcf_file_full_name[-1] == 'gz'):
        return '.'.join(vcf_file_full_name[:len(vcf_file_full_name) - 2])
    else:
        raise Exceptions.InappropriateVCFSuffix(path)

`os.path.split(path)[1]` is the part of `path` after its last `/`
(`baseNameOf`), and `compsOf` is its split on `'.'`.  Python's negative
indexing `lst[-2]` is `lst[len - 2]` when `len ≥ 2` and raises
`IndexError` otherwise; `lst[-1]` is `lst[len - 1]`. -/
def baseNameOf (path : String) : List Char :=
  (splitOnChar '/' path.data).getLastD []

/-- `os.path.split(path)[1].split('.')` from `obtain_vcf_file_prefix`. -/
def compsOf (path : String) : List (List Char) :=
  splitOnChar '.' (baseNameOf path)

def obtain_vcf_file_stem (path : String) : Except PyError String :=
  let comps := compsOf path
  if comps.length < 2 then .error .indexError
  else if comps.getD (comps.length - 2) [] = "vcf".data ∧
      comps.getD (comps.length - 1) [] = "gz".data then
    .ok ⟨intercalateChar '.' (comps.take (comps.length - 2))⟩
  else .error .inappropriateVCFSuffix

/-- Python `list.remove(x)`: deletes the first occurrence of `x`, or
raises `ValueError` when `x` does not occur.  Used by
`obtain_vcf_sample_list` as `vcf_sample_list.remove('PharmCAT')`. -/
def pyListRemove (x : String) : List String → Except PyError (List String)
  | [] => .error .valueError
  | a :: rest =>
    if a = x then .ok rest
    else (pyListRemove x rest).map (fun r => a :: r)

/-- Translation of `obtain_vcf_sample_list`: `bcftools query -l` yields
the raw sample lines (supplied here as `rawSamples`); the function then
performs `vcf_sample_list.remove('PharmCAT')` and returns the result. -/
def obtain_vcf_sample_list (rawSamples : List String) : Except PyError (List String) :=
  pyListRemove "PharmCAT" rawSamples

/-- The per-sample output path built in `output_pharmcat_ready_vcf`:
`os.path.join(output_dir, output_prefix + '.' + single_sample + '.vcf.gz')`. -/
def outputFileName (dir stem sample : String) : String :=
  joinPath dir (stem ++ "." ++ sample ++ ".vcf.gz")

/-! ## Record-level model of the variant files

The scripts manipulate VCF files only through `bcftools`; the
record-level semantics of the subcommands they invoke is modelled here,
following the behaviour documented in the source comments
(`vcf_preprocess_utilities.py`): `view -s S -U` restricts the file to
the one named sample and "-U excludes sites without a called genotype,
i.e., GT = './.'"; `annotate --rename-chrs` "convert[s] chromosome
names from the old ones to the new ones"; `isec -c indels -C -w1`
"outputs positions present only in the first file but missing in the
others", where "-c indels means that all indel records are compatible,
regardless of whether the REF and ALT alleles match or not". -/

/-- A per-sample genotype call: fully missing (`./.`) or called. -/
inductive Genotype
  | missing
  | called (a b : Nat)
deriving DecidableEq

/-- One data line of a VCF file.  `genotypes` is aligned with the
file's sample list. -/
structure VariantRecord where
  chrom : String
  pos : Nat
  ref : String
  alt : List String
  info : List (String × String)
  genotypes : List Genotype
deriving DecidableEq

structure VariantFile where
  samples : List String
  records : List VariantRecord
deriving DecidableEq

/-- Fallback record for `List.getD`-style statements. -/
def emptyRecord : VariantRecord := ⟨"", 0, "", [], [], []⟩

/-- Genotype of the sample at column `i` of a record (fully missing if
the column does not exist). -/
def genotypeAt (i : Nat) (r : VariantRecord) : Genotype :=
  r.genotypes.getD i .missing

/-- Records of `bcftools view -s S -U` where `S` is the sample at
column `i`: keep only records whose genotype for that sample is not
fully missing, and project the genotype columns to that single
sample. -/
def viewRecords (i : Nat) : List VariantRecord → List VariantRecord
  | [] => []
  | r :: rest =>
    if genotypeAt i r = .missing then viewRecords i rest
    else { r with genotypes := [genotypeAt i r] } :: viewRecords i rest

/-- `bcftools view --no-version -U -s S input`: `none` models the
bcftools error when `S` is not a sample of the file. -/
def view_single_sample_U (f : VariantFile) (s : String) : Option VariantFile :=
  match f.samples.findIdx? (fun t => t == s) with
  | none => none
  | some i => some { samples := [s], records := viewRecords i f.records }

/-- The per-sample outputs written by the loop in
`output_pharmcat_ready_vcf`, in sample-list order. -/
def splitOutputs (dir stem : String) (f : VariantFile) :
    List String → Option (List (String × VariantFile))
  | [] => some []
  | s :: rest =>
    match view_single_sample_U f s, splitOutputs dir stem f rest with
    | some v, some acc => some ((outputFileName dir stem s, v) :: acc)
    | _, _ => none

/-- Record-level model of `output_pharmcat_ready_vcf`: obtain the
sample list (removing the literal sample `'PharmCAT'`, raising
`ValueError` when absent), then write one single-sample
genotype-filtered file per remaining sample. -/
def output_pharmcat_ready_vcf (dir stem : String) (f : VariantFile) :
    Except PyError (Option (List (String × VariantFile))) :=
  (obtain_vcf_sample_list f.samples).map (splitOutputs dir stem f)

/-- A chromosome-rename map (`--rename-chrs` file): `old → new` pairs;
unlisted names pass through unchanged. -/
def ChromosomeMap : Type := List (String × String)

/-- The new name of chromosome `c` under map `m`. -/
def mapChrom (m : ChromosomeMap) (c : String) : String :=
  match m.find? (fun p => p.fst == c) with
  | some p => p.snd
  | none => c

def renameRecords (m : ChromosomeMap) : List VariantRecord → List VariantRecord
  | [] => []
  | r :: rest => { r with chrom := mapChrom m r.chrom } :: renameRecords m rest

/-- Record-level model of `rename_chr` (`bcftools annotate --no-version
--rename-chrs m -Oz -o out input`). -/
def rename_chr (m : ChromosomeMap) (f : VariantFile) : VariantFile :=
  { f with records := renameRecords m f.records }

/-- A record is an indel record when some ALT allele changes length
relative to REF. -/
def isIndelRec (r : VariantRecord) : Bool :=
  r.alt.any (fun a => a.length != r.ref.length)

/-- Compatibility of two records under `bcftools isec -c indels`: same
position, and either both records are indel records (then REF/ALT need
not match, per the source comment), or REF and ALT agree exactly. -/
def compatibleRec (a b : VariantRecord) : Bool :=
  a.chrom == b.chrom && a.pos == b.pos &&
    ((isIndelRec a && isIndelRec b) || (a.ref == b.ref && a.alt == b.alt))

/-- Record-level model of `output_missing_pgx_positions`
(`bcftools isec --no-version -c indels -w1 -Oz -o out -C template input`):
the template's own records at positions present in the template but
missing (up to indel compatibility) from the input. -/
def output_missing_pgx_positions (template input : VariantFile) : VariantFile :=
  { samples := template.samples,
    records := template.records.filter
      (fun t => !(input.records.any (fun r => compatibleRec t r))) }

/-- Every record of `A` has a compatible record in `B`. -/
def coveredBy (A B : List VariantRecord) : Bool :=
  A.all (fun a => B.any (fun b => compatibleRec a b))

/-- The indel-aware notion of set equality used by the spec's set law:
each side is covered by the other up to `compatibleRec`. -/
def indelAwareSetEq (A B : List VariantRecord) : Bool :=
  coveredBy A B && coveredBy B A

/-! ## Trace model of `PharmCAT_VCF_Preprocess.run`

`run(args)` is a straight-line Python function whose observable
behaviour is the ordered sequence of external commands it executes
(and, at the end, the `os.remove` calls of `remove_vcf_and_index`),
plus how the process terminates.  We model it as a function from the
arguments and an oracle — which fixes, for every subprocess call site,
whether the call returns (with which exit code) or raises an OS-level
exception, and what `bcftools query -l` prints — to a termination
status and an event trace.

Faithfulness notes, keyed to the source:
* `running_bcftools` calls `subprocess.run` without `check=True`, so a
  subcommand that returns a non-zero exit code is silently ignored; an
  exception while starting it propagates out of `run` uncaught.
* `tabix_index_vcf` wraps its `subprocess.run` in `try/except` and on
  an exception prints `'Error: cannot index the file: %s'` and calls
  `sys.exit(1)`; a non-zero return code raises nothing and is ignored.
* `obtain_vcf_sample_list` uses `subprocess.check_output`, which does
  check: a non-zero exit code raises `CalledProcessError`.
* The reference-sequence download (`download_grch38_ref_fasta_and_index`)
  is out of scope per the spec; it is modelled as the path it returns
  (`<cwd>/GCA_..._no_alt_analysis_set.fna`).
* `remove_vcf_and_index` wraps `os.remove` in `try/except OSError` and
  continues on error; removal of files the run itself just created is
  modelled as succeeding.
-/

/-- The subprocess call sites of one pipeline run, in program order. -/
inductive CallSite
  | tabixInput
  | annotate
  | tabixRenamed
  | mergeCall
  | tabixMerged
  | normCall
  | tabixNormalized
  | queryList
  | viewCall (sample : String)
  | isecCall
deriving DecidableEq

/-- Outcome of starting one subprocess: it ran and returned an exit
code, or an exception (e.g. `FileNotFoundError`) was raised. -/
inductive SubprocOutcome
  | ret (code : Nat)
  | raise
deriving DecidableEq

/-- Environment of a run: outcome of every subprocess call site, and
the sample lines printed by `bcftools query -l`. -/
structure Oracle where
  call : CallSite → SubprocOutcome
  rawSamples : List String

/-- Observable events of a run: an executed external command, or a
deleted file. -/
inductive Event
  | tabix (file : String)
  | renamed (inp chrMap outp : String)
  | merged (inp refPgx outp : String)
  | normalized (inp refSeq outp : String)
  | sampleQuery (inp : String)
  | view (sample inp outp : String)
  | isecReport (refPgx inp outp : String)
  | removed (file : String)
deriving DecidableEq

/-- How the Python process ends: `run` returns (process exit code 0),
`sys.exit(code)` was called, or an exception escaped `run` (process
exit code 1 with a traceback). -/
inductive ExitStatus
  | completed
  | sysExit (code : Nat)
  | uncaughtErr (e : PyError)
deriving DecidableEq

/-- The process exit code resulting from an `ExitStatus`. -/
def pyExitCode : ExitStatus → Nat
  | .completed => 0
  | .sysExit n => n
  | .uncaughtErr _ => 1

/-- Arguments of `run` (the argparse surface), plus the one filesystem
fact the control flow reads: whether `<input_vcf>.tbi` already
exists. -/
structure Args where
  input_vcf : String
  rename_chrs : String
  ref_pgx_vcf : String
  ref_seq : Option String
  output_folder : String
  output_stem : String
  cwd : String
  inputIndexExists : Bool

/-- Local path of the downloaded GRCh38 reference sequence after
`gunzip` (basename of the FTP URL with `.gz` stripped by
`os.path.splitext`). -/
def grch38LocalFasta (cwd : String) : String :=
  joinPath cwd "GCA_000001405.15_GRCh38_no_alt_analysis_set.fna"

/-- Whether `tabix_index_vcf`'s subprocess raises at this site (then
the script prints an error naming the file and exits with code 1). -/
def tabixRaised (o : Oracle) (site : CallSite) : Bool :=
  match o.call site with
  | .raise => true
  | .ret _ => false

/-- The per-sample `bcftools view` loop of `output_pharmcat_ready_vcf`:
events of the commands that ran, and whether the loop finished without
a raised exception. -/
def viewLoop (o : Oracle) (dir stem inVcf : String) :
    List String → List Event × Bool
  | [] => ([], true)
  | s :: rest =>
    match o.call (.viewCall s) with
    | .raise => ([], false)
    | .ret _ =>
      let p := viewLoop o dir stem inVcf rest
      (.view s inVcf (outputFileName dir stem s) :: p.fst, p.snd)

/-- Trace semantics of the part of `run` after the optional indexing
of the input (`PharmCAT_VCF_Preprocess.py`, lines 25-53), line for
line: `t0` is the trace accumulated so far.  Stage order, artifact
naming (`<stem>.chr_renamed.vcf.gz` → `….pgx_merged.vcf.gz` →
`….normalized.vcf.gz`), the tabix call after each stage, the
registration of the three intermediates in `tmp_files_to_be_removed`,
and the final cleanup loop are exactly those of the source. -/
def runAfterIndex (args : Args) (o : Oracle) (t0 : List Event) :
    ExitStatus × List Event :=
  let refSeq := args.ref_seq.getD (grch38LocalFasta args.cwd)
  match obtain_vcf_file_stem args.input_vcf with
    | .error e => (.uncaughtErr e, t0)
    | .ok p1 =>
      let renamedVcf := joinPath args.output_folder (p1 ++ ".chr_renamed.vcf.gz")
      match o.call .annotate with
      | .raise => (.uncaughtErr .subprocessRaised, t0)
      | .ret _ =>
        let t1 := t0 ++ [.renamed args.input_vcf args.rename_chrs renamedVcf]
        if tabixRaised o .tabixRenamed then (.sysExit 1, t1)
        else
          let t2 := t1 ++ [.tabix renamedVcf]
          match obtain_vcf_file_stem renamedVcf with
          | .error e => (.uncaughtErr e, t2)
          | .ok p2 =>
            let mergedVcf := joinPath args.output_folder (p2 ++ ".pgx_merged.vcf.gz")
            match o.call .mergeCall with
            | .raise => (.uncaughtErr .subprocessRaised, t2)
            | .ret _ =>
              let t3 := t2 ++ [.merged renamedVcf args.ref_pgx_vcf mergedVcf]
              if tabixRaised o .tabixMerged then (.sysExit 1, t3)
              else
                let t4 := t3 ++ [.tabix mergedVcf]
                match obtain_vcf_file_stem mergedVcf with
                | .error e => (.uncaughtErr e, t4)
                | .ok p3 =>
                  let normVcf := joinPath args.output_folder (p3 ++ ".normalized.vcf.gz")
                  match o.call .normCall with
                  | .raise => (.uncaughtErr .subprocessRaised, t4)
                  | .ret _ =>
                    let t5 := t4 ++ [.normalized mergedVcf refSeq normVcf]
                    if tabixRaised o .tabixNormalized then (.sysExit 1, t5)
                    else
                      let t6 := t5 ++ [.tabix normVcf]
                      match o.call .queryList with
                      | .raise => (.uncaughtErr .subprocessRaised, t6)
                      | .ret c =>
                        let t7 := t6 ++ [.sampleQuery normVcf]
                        if c ≠ 0 then (.uncaughtErr .calledProcessError, t7)
                        else
                          match obtain_vcf_sample_list o.rawSamples with
                          | .error e => (.uncaughtErr e, t7)
                          | .ok samples =>
                            let vp := viewLoop o args.output_folder args.output_stem
                              normVcf samples
                            let t8 := t7 ++ vp.fst
                            if !vp.snd then (.uncaughtErr .subprocessRaised, t8)
                            else
                              match o.call .isecCall with
                              | .raise => (.uncaughtErr .subprocessRaised, t8)
                              | .ret _ =>
                                let reportVcf := joinPath args.output_folder
                                  (args.output_stem ++ ".missing_pgx_var.vcf.gz")
                                let t9 := t8 ++
                                  [.isecReport args.ref_pgx_vcf normVcf reportVcf]
                                (.completed, t9 ++
                                  [.removed renamedVcf, .removed (renamedVcf ++ ".tbi"),
                                   .removed mergedVcf, .removed (mergedVcf ++ ".tbi"),
                                   .removed normVcf, .removed (normVcf ++ ".tbi")])

/-- Trace semantics of `run` from `PharmCAT_VCF_Preprocess.py`: if
`<input_vcf>.tbi` does not exist, the input is first indexed with
tabix (aborting with `sys.exit(1)` if that call raises), then the rest
of the pipeline executes. -/
def run (args : Args) (o : Oracle) : ExitStatus × List Event :=
  if args.inputIndexExists then runAfterIndex args o []
  else
    match o.call .tabixInput with
    | .raise => (.sysExit 1, [])
    | .ret _ => runAfterIndex args o [.tabix args.input_vcf]

/-- Recognizer for file-deletion events, to reason about cleanup. -/
def isRemoveEv : Event → Bool
  | .removed _ => true
  | _ => false

/-- Output files of the per-sample view events of a trace. -/
def viewOuts (t : List Event) : List String :=
  t.filterMap (fun e => match e with | .view _ _ o => some o | _ => none)

/-- Input files consumed by the missing-position report events of a
trace. -/
def isecInps (t : List Event) : List String :=
  t.filterMap (fun e => match e with | .isecReport _ i _ => some i | _ => none)

/-! ## Concrete fixtures used by witnesses and counterexamples -/

/-- A representative argument vector: compressed input VCF, explicit
reference sequence, output folder `out`, output file stem `pp`. -/
def fixArgs : Args :=
  { input_vcf := "data/in.vcf.gz"
    rename_chrs := "chr_map.txt"
    ref_pgx_vcf := "pgx.vcf.gz"
    ref_seq := some "ref.fna"
    output_folder := "out"
    output_stem := "pp"
    cwd := "/wd"
    inputIndexExists := true }

/-- Oracle of a fully successful run: every subprocess returns 0 and
the merged file lists one real sample `A` plus the template sample. -/
def okOracle : Oracle :=
  { call := fun _ => .ret 0
    rawSamples := ["A", "PharmCAT"] }

/-- Oracle in which the chromosome-renaming stage fails: its
`bcftools annotate` subprocess returns exit code 1; everything else
returns 0. -/
def renameFailsOracle : Oracle :=
  { call := fun s => match s with | .annotate => .ret 1 | _ => .ret 0
    rawSamples := ["A", "PharmCAT"] }

/-- Oracle in which indexing the merged intermediate raises (e.g. the
tabix executable is missing from that point on). -/
def tabixMergedRaisesOracle : Oracle :=
  { call := fun s => match s with | .tabixMerged => .raise | _ => .ret 0
    rawSamples := ["A", "PharmCAT"] }

/-- Template fixture for the missing-position set law: one SNP at
chr1:100. -/
def tmplFile : VariantFile :=
  { samples := ["PharmCAT"]
    records := [⟨"chr1", 100, "A", ["T"], [], [.called 0 0]⟩] }

/-- Input fixture whose only record sits at a position absent from the
template: one SNP at chr1:200. -/
def extraPosFile : VariantFile :=
  { samples := ["S"]
    records := [⟨"chr1", 200, "G", ["C"], [], [.called 0 1]⟩] }

/-- Chromosome-rename map fixture. -/
def renMapFix : ChromosomeMap := [("1", "chr1")]

/-- Two-record file fixture for the renaming claim (the second record's
chromosome is not in the map and passes through). -/
def renFileFix : VariantFile :=
  { samples := ["A"]
    records := [⟨"1", 100, "A", ["T"], [("AC", "1")], [.called 0 1]⟩,
                ⟨"7", 200, "G", ["C"], [], [.missing]⟩] }

/-- Multi-sample fixture for the sample-splitting claim: sample `A` is
missing at chr1:100 where the others are called, and sample `B` is
missing at chr1:200. -/
def splitFix : VariantFile :=
  { samples := ["A", "PharmCAT", "B"]
    records := [⟨"chr1", 100, "A", ["T"], [], [.missing, .called 0 0, .called 0 1]⟩,
                ⟨"chr1", 200, "G", ["C"], [], [.called 1 1, .called 0 0, .missing]⟩] }

/-! ## Supporting lemmas on the string model -/

theorem splitOnChar_cons (sep c : Char) (rest : List Char) (h' : List Char)
    (t : List (List Char)) (h : splitOnChar sep rest = h' :: t) :
    splitOnChar sep (c :: rest) = if c = sep then [] :: h' :: t else (c :: h') :: t := by
  simp [splitOnChar, h]

theorem splitOnChar_ne_nil (sep : Char) (l : List Char) : splitOnChar sep l ≠ [] := by
  cases l with
  | nil => simp [splitOnChar]
  | cons c rest =>
    rcases h : splitOnChar sep rest with _ | ⟨h', t⟩
    · simp [splitOnChar, h]
    · rw [splitOnChar_cons sep c rest h' t h]
      by_cases hc : c = sep <;> simp [hc]

theorem splitOnChar_of_not_mem (sep : Char) (l : List Char) (h : sep ∉ l) :
    splitOnChar sep l = [l] := by
  induction l with
  | nil => rfl
  | cons c rest ih =>
    have hc : c ≠ sep := fun hc => h (hc ▸ List.mem_cons_self c rest)
    have hrest : sep ∉ rest := fun hr => h (List.mem_cons_of_mem c hr)
    rw [splitOnChar_cons sep c rest rest [] (ih hrest), if_neg hc]

theorem splitOnChar_append_sep (sep : Char) (xs ys : List Char) :
    splitOnChar sep (xs ++ sep :: ys) = splitOnChar sep xs ++ splitOnChar sep ys := by
  induction xs with
  | nil =>
    rcases h : splitOnChar sep ys with _ | ⟨h', t⟩
    · exact absurd h (splitOnChar_ne_nil sep ys)
    · rw [List.nil_append, splitOnChar_cons sep sep ys h' t h, if_pos rfl]
      simp [splitOnChar, h]
  | cons c xs ih =>
    rcases h2 : splitOnChar sep xs with _ | ⟨h2', t2⟩
    · exact absurd h2 (splitOnChar_ne_nil sep xs)
    · have hmid : splitOnChar sep (xs ++ sep :: ys) = h2' :: (t2 ++ splitOnChar sep ys) := by
        rw [ih, h2]; rfl
      rw [List.cons_append, splitOnChar_cons sep c _ _ _ hmid,
        splitOnChar_cons sep c xs h2' t2 h2]
      by_cases hc : c = sep <;> simp [hc]

theorem intercalateChar_splitOnChar (sep : Char) (l : List Char) :
    intercalateChar sep (splitOnChar sep l) = l := by
  induction l with
  | nil => rfl
  | cons c rest ih =>
    rcases h : splitOnChar sep rest with _ | ⟨h', t⟩
    · exact absurd h (splitOnChar_ne_nil sep rest)
    · rw [h] at ih
      rw [splitOnChar_cons sep c rest h' t h]
      by_cases hc : c = sep
      · subst hc
        rw [if_pos rfl]
        cases t with
        | nil => exact congrArg (c :: ·) ih
        | cons u t' => exact congrArg (c :: ·) ih
      · rw [if_neg hc]
        cases t with
        | nil => exact congrArg (c :: ·) ih
        | cons u t' => exact congrArg (c :: ·) ih

theorem mem_of_mem_splitOnChar (sep : Char) (l : List Char) :
    ∀ p ∈ splitOnChar sep l, ∀ c ∈ p, c ∈ l := by
  induction l with
  | nil =>
    intro p hp c hc
    simp [splitOnChar] at hp
    subst hp
    exact absurd hc (List.not_mem_nil c)
  | cons a rest ih =>
    intro p hp c hc
    rcases h : splitOnChar sep rest with _ | ⟨h', t⟩
    · exact absurd h (splitOnChar_ne_nil sep rest)
    · rw [splitOnChar_cons sep a rest h' t h] at hp
      by_cases ha : a = sep
      · rw [if_pos ha] at hp
        rcases List.mem_cons.mp hp with hp | hp
        · subst hp; exact absurd hc (List.not_mem_nil c)
        · exact List.mem_cons_of_mem a (ih p (h ▸ hp) c hc)
      · rw [if_neg ha] at hp
        rcases List.mem_cons.mp hp with hp | hp
        · subst hp
          rcases List.mem_cons.mp hc with hc | hc
          · exact hc ▸ List.mem_cons_self a rest
          · exact List.mem_cons_of_mem a (ih h' (h ▸ List.mem_cons_self h' t) c hc)
        · exact List.mem_cons_of_mem a (ih p (h ▸ List.mem_cons_of_mem h' hp) c hc)

theorem not_mem_splitOnChar_piece (sep : Char) (l : List Char) :
    ∀ p ∈ splitOnChar sep l, sep ∉ p := by
  induction l with
  | nil =>
    intro p hp
    simp [splitOnChar] at hp
    subst hp
    exact List.not_mem_nil sep
  | cons a rest ih =>
    intro p hp
    rcases h : splitOnChar sep rest with _ | ⟨h', t⟩
    · exact absurd h (splitOnChar_ne_nil sep rest)
    · rw [splitOnChar_cons sep a rest h' t h] at hp
      by_cases ha : a = sep
      · rw [if_pos ha] at hp
        rcases List.mem_cons.mp hp with hp | hp
        · subst hp; exact List.not_mem_nil sep
        · exact ih p (h ▸ hp)
      · rw [if_neg ha] at hp
        rcases List.mem_cons.mp hp with hp | hp
        · subst hp
          intro hmem
          rcases List.mem_cons.mp hmem with hmem | hmem
          · exact ha hmem.symm
          · exact ih h' (h ▸ List.mem_cons_self h' t) hmem
        · exact ih p (h ▸ List.mem_cons_of_mem h' hp)

theorem mem_intercalateChar (sep : Char) (L : List (List Char)) (c : Char)
    (hc : c ∈ intercalateChar sep L) : c = sep ∨ ∃ p ∈ L, c ∈ p := by
  induction L with
  | nil => exact absurd hc (List.not_mem_nil c)
  | cons p rest ih =>
    cases rest with
    | nil =>
      exact Or.inr ⟨p, List.mem_cons_self p [], hc⟩
    | cons q rest' =>
      simp only [intercalateChar] at hc
      rcases List.mem_append.mp hc with hc | hc
      · exact Or.inr ⟨p, List.mem_cons_self p _, hc⟩
      · rcases List.mem_cons.mp hc with hc | hc
        · exact Or.inl hc
        · rcases ih hc with h | ⟨p', hp', hcp'⟩
          · exact Or.inl h
          · exact Or.inr ⟨p', List.mem_cons_of_mem p hp', hcp'⟩

theorem getLastD_mem {α : Type} (l : List α) (h : l ≠ []) :
    ∀ d : α, l.getLastD d ∈ l := by
  induction l with
  | nil => exact absurd rfl h
  | cons a rest ih =>
    intro d
    cases rest with
    | nil => simp [List.getLastD]
    | cons b rest' =>
      have hmem := ih (by simp) a
      rw [List.getLastD_cons]
      exact List.mem_cons_of_mem a hmem

theorem intercalateChar_append_two (sep : Char) (A : List (List Char)) (v g : List Char)
    (hA : A ≠ []) :
    intercalateChar sep (A ++ [v, g]) = intercalateChar sep A ++ (sep :: v ++ sep :: g) := by
  induction A with
  | nil => exact absurd rfl hA
  | cons p rest ih =>
    cases rest with
    | nil => simp [intercalateChar]
    | cons q rest' =>
      have ihh := ih (by simp)
      calc intercalateChar sep ((p :: q :: rest') ++ [v, g])
          = p ++ sep :: intercalateChar sep ((q :: rest') ++ [v, g]) := by
            simp [intercalateChar]
        _ = p ++ sep :: (intercalateChar sep (q :: rest') ++ (sep :: v ++ sep :: g)) := by
            rw [ihh]
        _ = intercalateChar sep (p :: q :: rest') ++ (sep :: v ++ sep :: g) := by
            simp [intercalateChar]

theorem take_two_decomp {α : Type} (d : α) :
    ∀ (l : List α), 2 ≤ l.length →
      l = l.take (l.length - 2) ++ [l.getD (l.length - 2) d, l.getD (l.length - 1) d]
  | [], h => by simp at h
  | [_], h => by
    simp only [List.length_singleton] at h
    omega
  | [a, b], _ => by simp
  | a :: b :: c :: rest, _ => by
    have ih := take_two_decomp d (b :: c :: rest) (by
      simp only [List.length_cons]
      omega)
    have hlen : (a :: b :: c :: rest).length - 2 = ((b :: c :: rest).length - 2) + 1 := by
      simp only [List.length_cons]
      omega
    have hlen' : (a :: b :: c :: rest).length - 1 = ((b :: c :: rest).length - 1) + 1 := by
      simp only [List.length_cons]
      omega
    rw [hlen, hlen']
    simp only [List.take_succ_cons, List.getD_cons_succ, List.cons_append]
    exact congrArg (a :: ·) ih

/-! ## Lemmas about `pyListRemove` -/

theorem pyListRemove_not_mem (x : String) (l : List String) (h : x ∉ l) :
    pyListRemove x l = .error .valueError := by
  induction l with
  | nil => rfl
  | cons a rest ih =>
    have ha : a ≠ x := fun he => h (he ▸ List.mem_cons_self a rest)
    have hrest : x ∉ rest := fun hr => h (List.mem_cons_of_mem a hr)
    simp [pyListRemove, ha, ih hrest, Except.map]

theorem pyListRemove_mem (x : String) (l : List String) (h : x ∈ l) :
    ∃ l1 l2, l = l1 ++ x :: l2 ∧ x ∉ l1 ∧ pyListRemove x l = .ok (l1 ++ l2) := by
  induction l with
  | nil => exact absurd h (List.not_mem_nil x)
  | cons a rest ih =>
    by_cases ha : a = x
    · subst ha
      exact ⟨[], rest, rfl, List.not_mem_nil a, by simp [pyListRemove]⟩
    · have hrest : x ∈ rest := by
        rcases List.mem_cons.mp h with h' | h'
        · exact absurd h'.symm ha
        · exact h'
      rcases ih hrest with ⟨l1, l2, heq, hnm, hrun⟩
      refine ⟨a :: l1, l2, by rw [heq]; rfl, ?_, ?_⟩
      · intro hmem
        rcases List.mem_cons.mp hmem with h' | h'
        · exact ha h'.symm
        · exact hnm h'
      · simp [pyListRemove, ha, hrun, Except.map]

/-! ## Claim C9 -/

/-- C9: when the multi-sample file's sample list does not contain a
sample named exactly `PharmCAT`, `obtain_vcf_sample_list` fails with an
uncaught `ValueError` from `list.remove` (not one of the typed pipeline
errors); when `PharmCAT` occurs, exactly the first occurrence is
removed and the remaining samples are returned in their original
order. -/
theorem c9_sample_list_removal (raw : List String) :
    ("PharmCAT" ∉ raw → obtain_vcf_sample_list raw = .error .valueError) ∧
    ("PharmCAT" ∈ raw → ∃ l1 l2, raw = l1 ++ "PharmCAT" :: l2 ∧ "PharmCAT" ∉ l1 ∧
      obtain_vcf_sample_list raw = .ok (l1 ++ l2)) :=
  ⟨fun h => pyListRemove_not_mem _ raw h, fun h => pyListRemove_mem _ raw h⟩

/-- Witness for C9 at the concrete sample lists `["A", "B"]` (no
`PharmCAT`: `ValueError`) and `["A", "PharmCAT", "B"]`. -/
theorem c9_sample_list_removal_witness :
    obtain_vcf_sample_list ["A", "B"] = .error .valueError ∧
    ∃ l1 l2, ["A", "PharmCAT", "B"] = l1 ++ "PharmCAT" :: l2 ∧ "PharmCAT" ∉ l1 ∧
      obtain_vcf_sample_list ["A", "PharmCAT", "B"] = .ok (l1 ++ l2) :=
  ⟨(c9_sample_list_removal ["A", "B"]).1 (by decide),
   (c9_sample_list_removal ["A", "PharmCAT", "B"]).2 (by decide)⟩

/-! ## Claim C5 -/

/-- C5: the derived per-sample output file name
`os.path.join(output_dir, output_prefix + '.' + sample + '.vcf.gz')`
strips no characters and is injective in the sample identifier, so two
distinct sample identifiers can never map to the same output file and
no sample's output is ever overwritten by another's; the collision
condition of the claim is vacuous on this code (which accordingly
contains no `SampleNameCollisionError`). -/
theorem c5_output_names_injective (dir stem s1 s2 : String) (h : s1 ≠ s2) :
    outputFileName dir stem s1 ≠ outputFileName dir stem s2 := by
  intro heq
  apply h
  have hd := congrArg String.data heq
  simp only [outputFileName, joinPath, String.data_append, List.append_assoc] at hd
  have h1 := List.append_cancel_left hd
  have h2 := List.append_cancel_left h1
  have h3 := List.append_cancel_left h2
  have h4 := List.append_cancel_left h3
  exact String.ext (List.append_cancel_right h4)

/-- Witness for C5 at samples `A` and `B`. -/
theorem c5_output_names_injective_witness :
    outputFileName "out" "pp" "A" ≠ outputFileName "out" "pp" "B" :=
  c5_output_names_injective "out" "pp" "A" "B" (by decide)

/-! ## Claims C6 and C10 -/

/-- Counterexample to C6 as stated: for the input path `noext` (base
name with no `'.'`), the last two dot-separated components are not
`vcf` and `gz`, yet `obtain_vcf_file_prefix` raises `IndexError`, not
the typed invalid-suffix error the claim requires in that case. -/
theorem c6_counterexample_plain_name :
    obtain_vcf_file_stem "noext" = .error .indexError ∧
    PyError.indexError ≠ PyError.inappropriateVCFSuffix :=
  ⟨rfl, by decide⟩

/-- C6 (amended): provided the base name has at least two
dot-separated components, `obtain_vcf_file_prefix` succeeds exactly
when the last two components are `vcf` and `gz`, returning the base
name with its final `.vcf.gz` suffix removed (the dot-join of the
remaining components, which the second conjunct shows is the base name
minus the suffix); otherwise it raises the typed
`InappropriateVCFSuffix` error.  With fewer than two components it
raises `IndexError` instead (see the counterexample and C10). -/
theorem c6_stem_amended (path : String) (h2 : 2 ≤ (compsOf path).length) :
    ((compsOf path).getD ((compsOf path).length - 2) [] = "vcf".data ∧
        (compsOf path).getD ((compsOf path).length - 1) [] = "gz".data →
      obtain_vcf_file_stem path =
        .ok ⟨intercalateChar '.' ((compsOf path).take ((compsOf path).length - 2))⟩ ∧
      baseNameOf path =
        intercalateChar '.' ((compsOf path).take ((compsOf path).length - 2)) ++
          (if (compsOf path).length = 2 then "vcf.gz".data else ".vcf.gz".data)) ∧
    (¬((compsOf path).getD ((compsOf path).length - 2) [] = "vcf".data ∧
        (compsOf path).getD ((compsOf path).length - 1) [] = "gz".data) →
      obtain_vcf_file_stem path = .error .inappropriateVCFSuffix) := by
  constructor
  · intro hcond
    constructor
    · simp only [obtain_vcf_file_stem]
      rw [if_neg (by omega), if_pos hcond]
    · have hdec := take_two_decomp ([] : List Char) (compsOf path) h2
      rw [hcond.1, hcond.2] at hdec
      have hbase : baseNameOf path = intercalateChar '.' (compsOf path) :=
        (intercalateChar_splitOnChar '.' (baseNameOf path)).symm
      by_cases hlen : (compsOf path).length = 2
      · rw [if_pos hlen]
        have htake : (compsOf path).take ((compsOf path).length - 2) = [] := by
          rw [hlen]
          exact List.take_zero _
        rw [hbase, htake]
        conv_lhs => rw [hdec]
        rw [htake]
        rfl
      · rw [if_neg hlen]
        have hA : (compsOf path).take ((compsOf path).length - 2) ≠ [] := by
          intro hnil
          have := congrArg List.length hnil
          simp only [List.length_take, List.length_nil] at this
          omega
        rw [hbase]
        conv_lhs => rw [hdec]
        rw [intercalateChar_append_two '.' _ _ _ hA]
        rfl
  · intro hcond
    simp only [obtain_vcf_file_stem]
    rw [if_neg (by omega), if_neg hcond]

/-- Witness for C6 at the concrete path `data/in.vcf.gz` (the result
is the stem `in`). -/
theorem c6_stem_amended_witness : obtain_vcf_file_stem "data/in.vcf.gz" = .ok "in" :=
  ((c6_stem_amended "data/in.vcf.gz" (by decide)).1 (by decide)).1

/-- C10: for every input path whose base name contains no `'.'`,
`os.path.split(path)[1].split('.')` has a single component, and
`obtain_vcf_file_prefix` raises `IndexError` from the `[-2]` index
instead of returning a prefix or raising the typed invalid-suffix
error. -/
theorem c10_no_dot_index_error (path : String) (h : '.' ∉ baseNameOf path) :
    obtain_vcf_file_stem path = .error .indexError := by
  have hc : compsOf path = [baseNameOf path] :=
    splitOnChar_of_not_mem '.' (baseNameOf path) h
  simp only [obtain_vcf_file_stem, hc]
  rfl

/-- Witness for C10 at the concrete path `plainfile`. -/
theorem c10_no_dot_index_error_witness :
    obtain_vcf_file_stem "plainfile" = .error .indexError :=
  c10_no_dot_index_error "plainfile" (by decide)

/-! ## Claim C7 -/

theorem renameRecords_length (m : ChromosomeMap) (l : List VariantRecord) :
    (renameRecords m l).length = l.length := by
  induction l with
  | nil => rfl
  | cons r rest ih => simp [renameRecords, ih]

theorem renameRecords_getD (m : ChromosomeMap) :
    ∀ (l : List VariantRecord) (i : Nat), i < l.length →
      (renameRecords m l).getD i emptyRecord =
        { l.getD i emptyRecord with chrom := mapChrom m (l.getD i emptyRecord).chrom }
  | [], i, h => by simp at h
  | r :: rest, 0, _ => by simp [renameRecords]
  | r :: rest, i + 1, h => by
    simp only [renameRecords, List.getD_cons_succ]
    exact renameRecords_getD m rest i (Nat.lt_of_succ_lt_succ (by simpa using h))

/-- C7: renaming produces a file identical to the input except that
each record's `chrom` is replaced by its mapped name: the sample list
is unchanged, the number and order of records is unchanged (the `i`-th
output record corresponds to the `i`-th input record), and every field
other than `chrom` of every record is unchanged. -/
theorem c7_rename_changes_only_chrom (m : ChromosomeMap) (f : VariantFile) :
    (rename_chr m f).samples = f.samples ∧
    (rename_chr m f).records.length = f.records.length ∧
    ∀ i, i < f.records.length →
      ((rename_chr m f).records.getD i emptyRecord).chrom
          = mapChrom m ((f.records.getD i emptyRecord).chrom) ∧
      ((rename_chr m f).records.getD i emptyRecord).pos
          = (f.records.getD i emptyRecord).pos ∧
      ((rename_chr m f).records.getD i emptyRecord).ref
          = (f.records.getD i emptyRecord).ref ∧
      ((rename_chr m f).records.getD i emptyRecord).alt
          = (f.records.getD i emptyRecord).alt ∧
      ((rename_chr m f).records.getD i emptyRecord).info
          = (f.records.getD i emptyRecord).info ∧
      ((rename_chr m f).records.getD i emptyRecord).genotypes
          = (f.records.getD i emptyRecord).genotypes := by
  refine ⟨rfl, renameRecords_length m f.records, ?_⟩
  intro i h
  rw [show (rename_chr m f).records = renameRecords m f.records from rfl,
    renameRecords_getD m f.records i h]
  exact ⟨rfl, rfl, rfl, rfl, rfl, rfl⟩

/-- Witness for C7 at the concrete map and file fixtures, record 0. -/
theorem c7_rename_changes_only_chrom_witness :
    ((rename_chr renMapFix renFileFix).records.getD 0 emptyRecord).chrom
      = mapChrom renMapFix ((renFileFix.records.getD 0 emptyRecord).chrom) :=
  ((c7_rename_changes_only_chrom renMapFix renFileFix).2.2 0 (by decide)).1

/-! ## Claim C3 -/

theorem viewRecords_mem (i : Nat) (l : List VariantRecord) :
    ∀ r' ∈ viewRecords i l, ∃ r ∈ l, genotypeAt i r ≠ .missing ∧
      r' = { r with genotypes := [genotypeAt i r] } := by
  induction l with
  | nil => intro r' hr'; simp [viewRecords] at hr'
  | cons r rest ih =>
    intro r' hr'
    by_cases hm : genotypeAt i r = .missing
    · rw [show viewRecords i (r :: rest) = viewRecords i rest by
        simp [viewRecords, hm]] at hr'
      rcases ih r' hr' with ⟨r0, hr0, hgt, hproj⟩
      exact ⟨r0, List.mem_cons_of_mem r hr0, hgt, hproj⟩
    · rw [show viewRecords i (r :: rest)
          = { r with genotypes := [genotypeAt i r] } :: viewRecords i rest by
        simp [viewRecords, hm]] at hr'
      rcases List.mem_cons.mp hr' with h | h
      · exact ⟨r, List.mem_cons_self r rest, hm, h⟩
      · rcases ih r' h with ⟨r0, hr0, hgt, hproj⟩
        exact ⟨r0, List.mem_cons_of_mem r hr0, hgt, hproj⟩

theorem findIdx_beq_some_of_mem (s : String) (l : List String) (h : s ∈ l) :
    ∃ i, l.findIdx? (fun t => t == s) = some i := by
  induction l with
  | nil => exact absurd h (List.not_mem_nil s)
  | cons a rest ih =>
    by_cases ha : (a == s) = true
    · exact ⟨0, by simp [List.findIdx?_cons, ha]⟩
    · have hrest : s ∈ rest := by
        rcases List.mem_cons.mp h with h' | h'
        · exact absurd (by rw [h']; exact beq_self_eq_true a) ha
        · exact h'
      rcases ih hrest with ⟨i, hi⟩
      exact ⟨i + 1, by simp [List.findIdx?_cons, ha, hi]⟩

theorem view_single_sample_props (f : VariantFile) (s : String) (v : VariantFile)
    (hv : view_single_sample_U f s = some v) :
    ∃ i, f.samples.findIdx? (fun t => t == s) = some i ∧ v.samples = [s] ∧
      ∀ r' ∈ v.records,
        (∃ g, r'.genotypes = [g] ∧ g ≠ Genotype.missing) ∧
        ∃ r ∈ f.records, genotypeAt i r ≠ Genotype.missing ∧
          r'.chrom = r.chrom ∧ r'.pos = r.pos ∧ r'.ref = r.ref ∧ r'.alt = r.alt ∧
          r'.info = r.info ∧ r'.genotypes = [genotypeAt i r] := by
  unfold view_single_sample_U at hv
  rcases hidx : f.samples.findIdx? (fun t => t == s) with _ | i
  · rw [hidx] at hv; cases hv
  · rw [hidx] at hv
    refine ⟨i, rfl, ?_, ?_⟩
    · injection hv with hv
      rw [← hv]
    · injection hv with hv
      intro r' hr'
      rw [← hv] at hr'
      rcases viewRecords_mem i f.records r' hr' with ⟨r, hrmem, hgt, hproj⟩
      refine ⟨⟨genotypeAt i r, by rw [hproj], hgt⟩, r, hrmem, hgt, ?_⟩
      rw [hproj]
      exact ⟨rfl, rfl, rfl, rfl, rfl, rfl⟩

theorem splitOutputs_of_subset (dir stem : String) (f : VariantFile) :
    ∀ L : List String, (∀ s ∈ L, s ∈ f.samples) →
      ∃ outs, splitOutputs dir stem f L = some outs ∧
        outs.map Prod.fst = L.map (outputFileName dir stem) ∧
        ∀ e ∈ outs, ∃ s ∈ L, e.fst = outputFileName dir stem s ∧
          view_single_sample_U f s = some e.snd := by
  intro L
  induction L with
  | nil =>
    intro _
    exact ⟨[], rfl, rfl, by intro e he; exact absurd he (List.not_mem_nil e)⟩
  | cons s rest ih =>
    intro hsub
    have hs : s ∈ f.samples := hsub s (List.mem_cons_self s rest)
    have hv : ∃ v, view_single_sample_U f s = some v := by
      unfold view_single_sample_U
      rcases findIdx_beq_some_of_mem s f.samples hs with ⟨i, hi⟩
      rw [hi]
      exact ⟨_, rfl⟩
    rcases hv with ⟨v, hv⟩
    rcases ih (fun t ht => hsub t (List.mem_cons_of_mem s ht)) with ⟨outs, ho, hnames, hmem⟩
    refine ⟨(outputFileName dir stem s, v) :: outs, ?_, ?_, ?_⟩
    · simp only [splitOutputs, hv, ho]
    · simp [hnames]
    · intro e he
      rcases List.mem_cons.mp he with he | he
      · exact ⟨s, List.mem_cons_self s rest, by rw [he], by rw [he]; exact hv⟩
      · rcases hmem e he with ⟨t, htL, h1, h2⟩
        exact ⟨t, List.mem_cons_of_mem s htL, h1, h2⟩

/-- C3: for a normalized multi-sample file containing the synthetic
template sample `PharmCAT`, `output_pharmcat_ready_vcf` produces one
single-sample output file per remaining (real) sample, named by the
sample, whose sample list is exactly `[s]`, in which every record
carries only that sample's (non-missing) genotype column, and in which
no record whose genotype for that sample is fully missing (`./.`)
appears — regardless of the other samples' calls at that position;
every output record is an input record restricted to that column. -/
theorem c3_split_excludes_missing_genotypes (dir stem : String) (f : VariantFile)
    (hp : "PharmCAT" ∈ f.samples) :
    ∃ samples outs,
      obtain_vcf_sample_list f.samples = .ok samples ∧
      output_pharmcat_ready_vcf dir stem f = .ok (some outs) ∧
      outs.map Prod.fst = samples.map (outputFileName dir stem) ∧
      ∀ e ∈ outs, ∃ s ∈ samples, ∃ i,
        e.fst = outputFileName dir stem s ∧
        f.samples.findIdx? (fun t => t == s) = some i ∧
        e.snd.samples = [s] ∧
        ∀ r' ∈ e.snd.records,
          (∃ g, r'.genotypes = [g] ∧ g ≠ Genotype.missing) ∧
          ∃ r ∈ f.records, genotypeAt i r ≠ Genotype.missing ∧
            r'.chrom = r.chrom ∧ r'.pos = r.pos ∧ r'.ref = r.ref ∧ r'.alt = r.alt ∧
            r'.info = r.info ∧ r'.genotypes = [genotypeAt i r] := by
  rcases pyListRemove_mem "PharmCAT" f.samples hp with ⟨l1, l2, hdecomp, _, hok⟩
  have hsub : ∀ s ∈ l1 ++ l2, s ∈ f.samples := by
    intro s hsmem
    rw [hdecomp]
    rcases List.mem_append.mp hsmem with h | h
    · exact List.mem_append.mpr (Or.inl h)
    · exact List.mem_append.mpr (Or.inr (List.mem_cons_of_mem _ h))
  rcases splitOutputs_of_subset dir stem f (l1 ++ l2) hsub with ⟨outs, ho, hnames, hmem⟩
  refine ⟨l1 ++ l2, outs, hok, ?_, hnames, ?_⟩
  · simp only [output_pharmcat_ready_vcf, obtain_vcf_sample_list] at *
    rw [hok, Except.map, ho]
  · intro e he
    rcases hmem e he with ⟨s, hsL, h1, h2⟩
    rcases view_single_sample_props f s e.snd h2 with ⟨i, hi, hsmp, hrec⟩
    exact ⟨s, hsL, i, h1, hi, hsmp, hrec⟩

/-- Witness for C3 at the concrete three-sample fixture. -/
theorem c3_split_excludes_missing_genotypes_witness :
    ∃ samples outs,
      obtain_vcf_sample_list splitFix.samples = .ok samples ∧
      output_pharmcat_ready_vcf "out" "pp" splitFix = .ok (some outs) ∧
      outs.map Prod.fst = samples.map (outputFileName "out" "pp") ∧
      ∀ e ∈ outs, ∃ s ∈ samples, ∃ i,
        e.fst = outputFileName "out" "pp" s ∧
        splitFix.samples.findIdx? (fun t => t == s) = some i ∧
        e.snd.samples = [s] ∧
        ∀ r' ∈ e.snd.records,
          (∃ g, r'.genotypes = [g] ∧ g ≠ Genotype.missing) ∧
          ∃ r ∈ splitFix.records, genotypeAt i r ≠ Genotype.missing ∧
            r'.chrom = r.chrom ∧ r'.pos = r.pos ∧ r'.ref = r.ref ∧ r'.alt = r.alt ∧
            r'.info = r.info ∧ r'.genotypes = [genotypeAt i r] :=
  c3_split_excludes_missing_genotypes "out" "pp" splitFix (by decide)

/-! ## Claim C4 -/

theorem compatibleRec_self (r : VariantRecord) : compatibleRec r r = true := by
  simp [compatibleRec]

theorem coveredBy_iff (A B : List VariantRecord) :
    coveredBy A B = true ↔ ∀ a ∈ A, ∃ b ∈ B, compatibleRec a b = true := by
  simp [coveredBy, List.all_eq_true, List.any_eq_true]

/-- Counterexample to C4 as stated: for the one-record template at
chr1:100 and an input whose only record is at chr1:200 (a position the
template does not contain), the report plus the input's positions is a
strict superset of the template's positions, so the claimed set law
fails.  (The report here is the template's record itself, which chr1:200
does not cover.) -/
theorem c4_set_law_fails_for_extra_input_positions :
    (output_missing_pgx_positions tmplFile extraPosFile).records = tmplFile.records ∧
    indelAwareSetEq
      ((output_missing_pgx_positions tmplFile extraPosFile).records ++
        extraPosFile.records) tmplFile.records = false := by
  exact ⟨rfl, rfl⟩

/-- C4 (amended): every record of the missing-position report is one of
the template's own records (never synthesized from the input); the
report unioned with the input's records always covers the template's
records under the indel-aware compatibility notion; and the full
indel-aware set equality
`report ∪ positions(input) ≈ positions(template)` holds exactly when
every input record has an indel-aware-compatible template record (it
fails whenever the input has a position outside the template, as the
counterexample shows). -/
theorem c4_missing_report_set_law_amended (template input : VariantFile) :
    (∀ r ∈ (output_missing_pgx_positions template input).records, r ∈ template.records) ∧
    coveredBy template.records
      ((output_missing_pgx_positions template input).records ++ input.records) = true ∧
    (indelAwareSetEq
        ((output_missing_pgx_positions template input).records ++ input.records)
        template.records = true ↔
      coveredBy input.records template.records = true) := by
  have hrep : ∀ r ∈ (output_missing_pgx_positions template input).records,
      r ∈ template.records := by
    intro r hr
    simp only [output_missing_pgx_positions] at hr
    exact (List.mem_filter.mp hr).1
  have hcov : coveredBy template.records
      ((output_missing_pgx_positions template input).records ++ input.records) = true := by
    rw [coveredBy_iff]
    intro t ht
    by_cases hin : input.records.any (fun r => compatibleRec t r) = true
    · rcases List.any_eq_true.mp hin with ⟨r, hrmem, hc⟩
      exact ⟨r, List.mem_append.mpr (Or.inr hrmem), hc⟩
    · refine ⟨t, List.mem_append.mpr (Or.inl ?_), compatibleRec_self t⟩
      simp only [output_missing_pgx_positions, List.mem_filter]
      exact ⟨ht, by simp [hin]⟩
  refine ⟨hrep, hcov, ?_, ?_⟩
  · intro hset
    rw [coveredBy_iff]
    intro a ha
    have h1 := (Bool.and_eq_true _ _).mp hset |>.1
    exact (coveredBy_iff _ _).mp h1 a (List.mem_append.mpr (Or.inr ha))
  · intro hinp
    rw [indelAwareSetEq, Bool.and_eq_true]
    refine ⟨?_, hcov⟩
    rw [coveredBy_iff]
    intro a ha
    rcases List.mem_append.mp ha with h | h
    · exact ⟨a, hrep a h, compatibleRec_self a⟩
    · exact (coveredBy_iff _ _).mp hinp a h

/-- Witness for C4's amended law, discharging the iff's right-hand side
by computation at the template paired with itself. -/
theorem c4_missing_report_set_law_amended_witness :
    indelAwareSetEq
      ((output_missing_pgx_positions tmplFile tmplFile).records ++ tmplFile.records)
      tmplFile.records = true :=
  (c4_missing_report_set_law_amended tmplFile tmplFile).2.2.mpr (by decide)

/-! ## Lemmas about the `run` trace -/

theorem viewLoop_fst_of_snd (o : Oracle) (d p i : String) :
    ∀ L : List String, (viewLoop o d p i L).snd = true →
      (viewLoop o d p i L).fst
        = L.map (fun s => Event.view s i (outputFileName d p s)) := by
  intro L
  induction L with
  | nil => intro _; rfl
  | cons s rest ih =>
    intro hsnd
    rcases ec : o.call (CallSite.viewCall s) with c | _
    · have hstep : viewLoop o d p i (s :: rest) =
          (Event.view s i (outputFileName d p s) :: (viewLoop o d p i rest).fst,
            (viewLoop o d p i rest).snd) := by
        simp [viewLoop, ec]
      rw [hstep] at hsnd ⊢
      simp only [List.map_cons]
      exact congrArg _ (ih hsnd)
    · have hstep : viewLoop o d p i (s :: rest) = ([], false) := by
        simp [viewLoop, ec]
      rw [hstep] at hsnd
      cases hsnd

theorem viewLoop_no_removes (o : Oracle) (d p i : String) :
    ∀ L : List String, ((viewLoop o d p i L).fst.filter isRemoveEv) = [] := by
  intro L
  induction L with
  | nil => rfl
  | cons s rest ih =>
    rcases ec : o.call (CallSite.viewCall s) with c | _
    · simp [viewLoop, ec, isRemoveEv, ih]
    · simp [viewLoop, ec]

theorem filter_removeEv_baseline (args : Args) :
    (if args.inputIndexExists then ([] : List Event)
      else [Event.tabix args.input_vcf]).filter isRemoveEv = [] := by
  split <;> rfl

/-- The trace of `runAfterIndex` after the optional input-indexing
event list `t0`: either the run completes and the trace is `t0`
followed by the five-stage linear shape — rename, index, merge, index,
normalize, index, sample query, one view per real sample, report, then
removal of the three registered intermediates and their indexes — or it
aborts, in which case (given `t0` has none) no removal event appears in
its trace at all. -/
theorem runAfterIndex_cases (args : Args) (o : Oracle) (t0 : List Event)
    (h0 : t0.filter isRemoveEv = []) :
    ((runAfterIndex args o t0).fst = ExitStatus.completed ∧
      ∃ renamedVcf mergedVcf normVcf samples,
        obtain_vcf_sample_list o.rawSamples = .ok samples ∧
        (runAfterIndex args o t0).snd =
          t0 ++
          ([Event.renamed args.input_vcf args.rename_chrs renamedVcf,
            Event.tabix renamedVcf,
            Event.merged renamedVcf args.ref_pgx_vcf mergedVcf,
            Event.tabix mergedVcf,
            Event.normalized mergedVcf (args.ref_seq.getD (grch38LocalFasta args.cwd))
              normVcf,
            Event.tabix normVcf,
            Event.sampleQuery normVcf] ++
          (samples.map (fun s =>
            Event.view s normVcf (outputFileName args.output_folder args.output_stem s)) ++
          [Event.isecReport args.ref_pgx_vcf normVcf
            (joinPath args.output_folder (args.output_stem ++ ".missing_pgx_var.vcf.gz")),
           Event.removed renamedVcf, Event.removed (renamedVcf ++ ".tbi"),
           Event.removed mergedVcf, Event.removed (mergedVcf ++ ".tbi"),
           Event.removed normVcf, Event.removed (normVcf ++ ".tbi")]))) ∨
    ((runAfterIndex args o t0).fst ≠ ExitStatus.completed ∧
      (runAfterIndex args o t0).snd.filter isRemoveEv = []) := by
  rcases e1 : obtain_vcf_file_stem args.input_vcf with err1 | p1
  · right
    refine ⟨?_, ?_⟩ <;>
      simp [runAfterIndex, e1, h0]
  · rcases e2 : o.call CallSite.annotate with c2 | _
    swap
    · right
      refine ⟨?_, ?_⟩ <;>
        simp [runAfterIndex, e1, e2, h0, isRemoveEv, List.filter_append]
    · rcases e3 : o.call CallSite.tabixRenamed with c3 | _
      swap
      · right
        refine ⟨?_, ?_⟩ <;>
          simp [runAfterIndex, e1, e2, e3, tabixRaised, h0, isRemoveEv,
            List.filter_append]
      · rcases e4 : obtain_vcf_file_stem
            (joinPath args.output_folder (p1 ++ ".chr_renamed.vcf.gz")) with err4 | p2
        · right
          refine ⟨?_, ?_⟩ <;>
            simp [runAfterIndex, e1, e2, e3, e4, tabixRaised, h0, isRemoveEv,
              List.filter_append]
        · rcases e5 : o.call CallSite.mergeCall with c5 | _
          swap
          · right
            refine ⟨?_, ?_⟩ <;>
              simp [runAfterIndex, e1, e2, e3, e4, e5, tabixRaised, h0, isRemoveEv,
                List.filter_append]
          · rcases e6 : o.call CallSite.tabixMerged with c6 | _
            swap
            · right
              refine ⟨?_, ?_⟩ <;>
                simp [runAfterIndex, e1, e2, e3, e4, e5, e6, tabixRaised, h0,
                  isRemoveEv, List.filter_append]
            · rcases e7 : obtain_vcf_file_stem
                  (joinPath args.output_folder (p2 ++ ".pgx_merged.vcf.gz")) with err7 | p3
              · right
                refine ⟨?_, ?_⟩ <;>
                  simp [runAfterIndex, e1, e2, e3, e4, e5, e6, e7, tabixRaised, h0,
                    isRemoveEv, List.filter_append]
              · rcases e9 : o.call CallSite.normCall with c9 | _
                swap
                · right
                  refine ⟨?_, ?_⟩ <;>
                    simp [runAfterIndex, e1, e2, e3, e4, e5, e6, e7, e9, tabixRaised,
                      h0, isRemoveEv, List.filter_append]
                · rcases e10 : o.call CallSite.tabixNormalized with c10 | _
                  swap
                  · right
                    refine ⟨?_, ?_⟩ <;>
                      simp [runAfterIndex, e1, e2, e3, e4, e5, e6, e7, e9, e10,
                        tabixRaised, h0, isRemoveEv, List.filter_append]
                  · rcases e11 : o.call CallSite.queryList with c11 | _
                    swap
                    · right
                      refine ⟨?_, ?_⟩ <;>
                        simp [runAfterIndex, e1, e2, e3, e4, e5, e6, e7, e9, e10, e11,
                          tabixRaised, h0, isRemoveEv, List.filter_append]
                    · by_cases hc0 : c11 = 0
                      swap
                      · right
                        refine ⟨?_, ?_⟩ <;>
                          simp [runAfterIndex, e1, e2, e3, e4, e5, e6, e7, e9, e10, e11,
                            hc0, tabixRaised, h0, isRemoveEv, List.filter_append]
                      · subst hc0
                        rcases e8 : obtain_vcf_sample_list o.rawSamples with err8 | samples
                        · right
                          refine ⟨?_, ?_⟩ <;>
                            simp [runAfterIndex, e1, e2, e3, e4, e5, e6, e7, e9, e10,
                              e11, e8, tabixRaised, h0, isRemoveEv, List.filter_append]
                        · rcases evp : viewLoop o args.output_folder args.output_stem
                              (joinPath args.output_folder (p3 ++ ".normalized.vcf.gz"))
                              samples with ⟨viewEvs, okb⟩
                          have hnr : viewEvs.filter isRemoveEv = [] := by
                            have hvl := viewLoop_no_removes o args.output_folder
                              args.output_stem
                              (joinPath args.output_folder (p3 ++ ".normalized.vcf.gz"))
                              samples
                            rw [evp] at hvl
                            exact hvl
                          cases okb
                          · right
                            refine ⟨?_, ?_⟩ <;>
                              simp [runAfterIndex, e1, e2, e3, e4, e5, e6, e7, e9, e10,
                                e11, e8, evp, hnr, tabixRaised, h0, isRemoveEv,
                                List.filter_append]
                          · have hmap : viewEvs = samples.map (fun s =>
                                Event.view s
                                  (joinPath args.output_folder (p3 ++ ".normalized.vcf.gz"))
                                  (outputFileName args.output_folder args.output_stem s)) := by
                              have hvf := viewLoop_fst_of_snd o args.output_folder
                                args.output_stem
                                (joinPath args.output_folder (p3 ++ ".normalized.vcf.gz"))
                                samples (by rw [evp])
                              rw [evp] at hvf
                              exact hvf
                            rcases e12 : o.call CallSite.isecCall with c12 | _
                            swap
                            · right
                              refine ⟨?_, ?_⟩ <;>
                                simp [runAfterIndex, e1, e2, e3, e4, e5, e6, e7, e9,
                                  e10, e11, e8, evp, hnr, e12, tabixRaised, h0,
                                  isRemoveEv, List.filter_append]
                            · left
                              refine ⟨?_,
                                joinPath args.output_folder (p1 ++ ".chr_renamed.vcf.gz"),
                                joinPath args.output_folder (p2 ++ ".pgx_merged.vcf.gz"),
                                joinPath args.output_folder (p3 ++ ".normalized.vcf.gz"),
                                samples, rfl, ?_⟩ <;>
                                simp [runAfterIndex, e1, e2, e3, e4, e5, e6, e7, e9,
                                  e10, e11, e8, evp, hmap, e12, tabixRaised]

/-- Dichotomy of a full pipeline run, including the optional initial
indexing of the input file. -/
theorem run_cases (args : Args) (o : Oracle) :
    ((run args o).fst = ExitStatus.completed ∧
      ∃ renamedVcf mergedVcf normVcf samples,
        obtain_vcf_sample_list o.rawSamples = .ok samples ∧
        (run args o).snd =
          (if args.inputIndexExists then [] else [Event.tabix args.input_vcf]) ++
          ([Event.renamed args.input_vcf args.rename_chrs renamedVcf,
            Event.tabix renamedVcf,
            Event.merged renamedVcf args.ref_pgx_vcf mergedVcf,
            Event.tabix mergedVcf,
            Event.normalized mergedVcf (args.ref_seq.getD (grch38LocalFasta args.cwd))
              normVcf,
            Event.tabix normVcf,
            Event.sampleQuery normVcf] ++
          (samples.map (fun s =>
            Event.view s normVcf (outputFileName args.output_folder args.output_stem s)) ++
          [Event.isecReport args.ref_pgx_vcf normVcf
            (joinPath args.output_folder (args.output_stem ++ ".missing_pgx_var.vcf.gz")),
           Event.removed renamedVcf, Event.removed (renamedVcf ++ ".tbi"),
           Event.removed mergedVcf, Event.removed (mergedVcf ++ ".tbi"),
           Event.removed normVcf, Event.removed (normVcf ++ ".tbi")]))) ∨
    ((run args o).fst ≠ ExitStatus.completed ∧
      (run args o).snd.filter isRemoveEv = []) := by
  cases hii : args.inputIndexExists
  · rcases etI : o.call CallSite.tabixInput with cIn | _
    · have hrw : run args o = runAfterIndex args o [Event.tabix args.input_vcf] := by
        simp [run, hii, etI]
      rw [hrw]
      rcases runAfterIndex_cases args o [Event.tabix args.input_vcf] rfl with
        ⟨hc, r, m, n, ss, hok, hsnd⟩ | h
      · left
        exact ⟨hc, r, m, n, ss, hok, by rw [hsnd]; simp [hii]⟩
      · right
        exact h
    · right
      have hrw : run args o = (.sysExit 1, []) := by simp [run, hii, etI]
      rw [hrw]
      exact ⟨by simp, rfl⟩
  · have hrw : run args o = runAfterIndex args o [] := by simp [run, hii]
    rw [hrw]
    rcases runAfterIndex_cases args o [] rfl with ⟨hc, r, m, n, ss, hok, hsnd⟩ | h
    · left
      exact ⟨hc, r, m, n, ss, hok, by rw [hsnd]; simp [hii]⟩
    · right
      exact h

/-! ## Claim C1 -/

/-- Counterexample to C1 as stated: in a fully successful concrete run,
the missing-position report (stage 5) consumes the normalizer's output
file, not any output artifact of the per-sample splitting (stage 4), so
"the output artifact of each stage is used as the input of the next"
fails between stages 4 and 5. -/
theorem c1_reporter_consumes_normalizer_output :
    (run fixArgs okOracle).fst = ExitStatus.completed ∧
    isecInps (run fixArgs okOracle).snd
      = ["out/in.chr_renamed.pgx_merged.normalized.vcf.gz"] ∧
    viewOuts (run fixArgs okOracle).snd = ["out/pp.A.vcf.gz"] ∧
    "out/in.chr_renamed.pgx_merged.normalized.vcf.gz"
      ∉ viewOuts (run fixArgs okOracle).snd ∧
    Event.normalized "out/in.chr_renamed.pgx_merged.vcf.gz" "ref.fna"
      "out/in.chr_renamed.pgx_merged.normalized.vcf.gz" ∈ (run fixArgs okOracle).snd :=
  ⟨rfl, rfl, rfl, by decide, by decide⟩

/-- C1 (amended): every completed run executes exactly the five stages
in fixed linear order — renaming, merging, normalization, per-sample
splitting (one view per real sample), missing-position reporting — with
the output of renaming fed to merging, the output of merging fed to
normalization, and the output of normalization fed to **both** the
splitter and the reporter; each intermediate artifact (renamed, merged,
normalized) is tabix-indexed immediately after production and before
any stage consumes it, as the trace shape shows. -/
theorem c1_pipeline_trace_shape (args : Args) (o : Oracle)
    (h : (run args o).fst = ExitStatus.completed) :
    ∃ renamedVcf mergedVcf normVcf samples,
      obtain_vcf_sample_list o.rawSamples = .ok samples ∧
      (run args o).snd =
        (if args.inputIndexExists then [] else [Event.tabix args.input_vcf]) ++
        ([Event.renamed args.input_vcf args.rename_chrs renamedVcf,
          Event.tabix renamedVcf,
          Event.merged renamedVcf args.ref_pgx_vcf mergedVcf,
          Event.tabix mergedVcf,
          Event.normalized mergedVcf (args.ref_seq.getD (grch38LocalFasta args.cwd))
            normVcf,
          Event.tabix normVcf,
          Event.sampleQuery normVcf] ++
        (samples.map (fun s =>
          Event.view s normVcf (outputFileName args.output_folder args.output_stem s)) ++
        [Event.isecReport args.ref_pgx_vcf normVcf
          (joinPath args.output_folder (args.output_stem ++ ".missing_pgx_var.vcf.gz")),
         Event.removed renamedVcf, Event.removed (renamedVcf ++ ".tbi"),
         Event.removed mergedVcf, Event.removed (mergedVcf ++ ".tbi"),
         Event.removed normVcf, Event.removed (normVcf ++ ".tbi")])) :=
  ((run_cases args o).resolve_right (fun hr => hr.1 h)).2

/-- Witness for C1's amended trace shape at a concrete successful
run. -/
theorem c1_pipeline_trace_shape_witness :
    ∃ renamedVcf mergedVcf normVcf samples,
      obtain_vcf_sample_list okOracle.rawSamples = .ok samples ∧
      (run fixArgs okOracle).snd =
        (if fixArgs.inputIndexExists then [] else [Event.tabix fixArgs.input_vcf]) ++
        ([Event.renamed fixArgs.input_vcf fixArgs.rename_chrs renamedVcf,
          Event.tabix renamedVcf,
          Event.merged renamedVcf fixArgs.ref_pgx_vcf mergedVcf,
          Event.tabix mergedVcf,
          Event.normalized mergedVcf (fixArgs.ref_seq.getD (grch38LocalFasta fixArgs.cwd))
            normVcf,
          Event.tabix normVcf,
          Event.sampleQuery normVcf] ++
        (samples.map (fun s =>
          Event.view s normVcf (outputFileName fixArgs.output_folder fixArgs.output_stem s)) ++
        [Event.isecReport fixArgs.ref_pgx_vcf normVcf
          (joinPath fixArgs.output_folder (fixArgs.output_stem ++ ".missing_pgx_var.vcf.gz")),
         Event.removed renamedVcf, Event.removed (renamedVcf ++ ".tbi"),
         Event.removed mergedVcf, Event.removed (mergedVcf ++ ".tbi"),
         Event.removed normVcf, Event.removed (normVcf ++ ".tbi")])) :=
  c1_pipeline_trace_shape fixArgs okOracle rfl

/-! ## Claim C8 -/

theorem filter_removeEv_views (samples : List String) (nv d st : String) :
    ((samples.map (fun s => Event.view s nv (outputFileName d st s))).filter
      isRemoveEv) = [] := by
  induction samples with
  | nil => rfl
  | cons s rest ih => simp [isRemoveEv, ih]

/-- Counterexample to C8 as stated: in a concrete run that aborts while
indexing the merged intermediate, the renamed intermediate has been
produced and registered in the scoped temp-file list, yet no removal
happens at all — the release is not guaranteed on abort (the cleanup
loop at the end of `run` is only reached on success; there is no
`try/finally`). -/
theorem c8_abort_skips_cleanup :
    (run fixArgs tabixMergedRaisesOracle).fst = ExitStatus.sysExit 1 ∧
    Event.renamed "data/in.vcf.gz" "chr_map.txt" "out/in.chr_renamed.vcf.gz"
      ∈ (run fixArgs tabixMergedRaisesOracle).snd ∧
    (run fixArgs tabixMergedRaisesOracle).snd.filter isRemoveEv = [] :=
  ⟨rfl, by decide, rfl⟩

/-- C8 (amended): when the run finishes successfully, the files deleted
are exactly the three intermediates registered in the scoped temp-file
list (renamed, merged, normalized) together with their `.tbi` indexes —
in particular no per-sample output path or report path distinct from
those six names is ever deleted; when the run aborts, no file is
deleted at all (cleanup is not guaranteed on abort). -/
theorem c8_cleanup_amended (args : Args) (o : Oracle) :
    ((run args o).fst = ExitStatus.completed →
      ∃ renamedVcf mergedVcf normVcf,
        Event.renamed args.input_vcf args.rename_chrs renamedVcf ∈ (run args o).snd ∧
        Event.merged renamedVcf args.ref_pgx_vcf mergedVcf ∈ (run args o).snd ∧
        Event.normalized mergedVcf (args.ref_seq.getD (grch38LocalFasta args.cwd))
          normVcf ∈ (run args o).snd ∧
        (run args o).snd.filter isRemoveEv =
          [Event.removed renamedVcf, Event.removed (renamedVcf ++ ".tbi"),
           Event.removed mergedVcf, Event.removed (mergedVcf ++ ".tbi"),
           Event.removed normVcf, Event.removed (normVcf ++ ".tbi")]) ∧
    ((run args o).fst ≠ ExitStatus.completed →
      (run args o).snd.filter isRemoveEv = []) := by
  rcases run_cases args o with ⟨hc, r, m, n, ss, _, hsnd⟩ | ⟨hnc, hf⟩
  · constructor
    · intro _
      refine ⟨r, m, n, ?_, ?_, ?_, ?_⟩
      · rw [hsnd]; simp
      · rw [hsnd]; simp
      · rw [hsnd]; simp
      · rw [hsnd]
        simp [List.filter_append, filter_removeEv_baseline, filter_removeEv_views,
          isRemoveEv]
    · intro hne
      exact absurd hc hne
  · constructor
    · intro hch
      exact absurd hch hnc
    · intro _
      exact hf

/-- Witness for C8's amended cleanup behaviour: the aborted concrete
run removes nothing. -/
theorem c8_cleanup_amended_witness :
    (run fixArgs tabixMergedRaisesOracle).snd.filter isRemoveEv = [] :=
  (c8_cleanup_amended fixArgs tabixMergedRaisesOracle).2 (by decide)

/-! ## Claim C2

Supporting lemmas: the intermediate artifact names that `run`
constructs (`<stem>.chr_renamed.vcf.gz` etc.) always parse successfully
in the later `obtain_vcf_file_prefix` calls, because a stem returned by
a successful parse contains no `/`. -/

theorem getLastD_append_singleton {α : Type} (A : List α) (x : α) :
    ∀ d, (A ++ [x]).getLastD d = x := by
  induction A with
  | nil => intro d; rfl
  | cons a rest ih =>
    intro d
    rw [List.cons_append, List.getLastD_cons]
    exact ih a

theorem stem_no_slash (path p : String) (h : obtain_vcf_file_stem path = .ok p) :
    '/' ∉ p.data := by
  simp only [obtain_vcf_file_stem] at h
  by_cases h2 : (compsOf path).length < 2
  · rw [if_pos h2] at h; cases h
  · rw [if_neg h2] at h
    by_cases hcond : ((compsOf path).getD ((compsOf path).length - 2) [] = "vcf".data ∧
        (compsOf path).getD ((compsOf path).length - 1) [] = "gz".data)
    · rw [if_pos hcond] at h
      injection h with h
      intro hmem
      rw [← h] at hmem
      rcases mem_intercalateChar '.'
          ((compsOf path).take ((compsOf path).length - 2)) '/' hmem with
        heq | ⟨piece, hpt, hcp⟩
      · exact absurd heq (by decide)
      · have hpc : piece ∈ compsOf path := List.take_subset _ _ hpt
        have hslash : '/' ∈ baseNameOf path :=
          mem_of_mem_splitOnChar '.' (baseNameOf path) piece hpc '/' hcp
        have hbm : baseNameOf path ∈ splitOnChar '/' path.data :=
          getLastD_mem _ (splitOnChar_ne_nil '/' path.data) []
        exact not_mem_splitOnChar_piece '/' path.data (baseNameOf path) hbm hslash
    · rw [if_neg hcond] at h; cases h

theorem obtain_stem_constructed (dir : String) (q : List Char) (hq : '/' ∉ q) :
    obtain_vcf_file_stem (joinPath dir ⟨q ++ ".vcf.gz".data⟩) = .ok ⟨q⟩ := by
  have hdata : (joinPath dir ⟨q ++ ".vcf.gz".data⟩).data
      = dir.data ++ '/' :: (q ++ ".vcf.gz".data) := by
    simp [joinPath, String.data_append]
  have hnos : '/' ∉ q ++ ".vcf.gz".data := by
    intro hm
    rcases List.mem_append.mp hm with hm | hm
    · exact hq hm
    · exact absurd hm (by decide)
  have hbase : baseNameOf (joinPath dir ⟨q ++ ".vcf.gz".data⟩)
      = q ++ ".vcf.gz".data := by
    unfold baseNameOf
    rw [hdata, splitOnChar_append_sep, splitOnChar_of_not_mem '/' _ hnos]
    exact getLastD_append_singleton _ _ []
  have hvcfgz : q ++ ".vcf.gz".data = q ++ '.' :: ("vcf".data ++ '.' :: "gz".data) := rfl
  have hcomps : compsOf (joinPath dir ⟨q ++ ".vcf.gz".data⟩)
      = splitOnChar '.' q ++ ["vcf".data, "gz".data] := by
    unfold compsOf
    rw [hbase, hvcfgz, splitOnChar_append_sep]
    exact congrArg (fun l => splitOnChar '.' q ++ l) (by decide)
  have hK : 1 ≤ (splitOnChar '.' q).length :=
    List.length_pos.mpr (splitOnChar_ne_nil '.' q)
  have hlen : (splitOnChar '.' q ++ ["vcf".data, "gz".data]).length
      = (splitOnChar '.' q).length + 2 := by
    simp
  simp only [obtain_vcf_file_stem, hcomps]
  rw [if_neg (by rw [hlen]; omega)]
  rw [if_pos ?cond]
  case cond =>
    constructor
    · rw [hlen, Nat.add_sub_cancel,
        List.getD_append_right _ _ _ _ (Nat.le_refl _), Nat.sub_self]
      rfl
    · rw [hlen, show (splitOnChar '.' q).length + 2 - 1
          = (splitOnChar '.' q).length + 1 from rfl,
        List.getD_append_right _ _ _ _ (Nat.le_add_right _ _),
        Nat.add_sub_cancel_left]
      rfl
  rw [hlen, Nat.add_sub_cancel, List.take_left]
  rw [intercalateChar_splitOnChar]

theorem viewLoop_snd_of_no_raise (o : Oracle) (d st i : String)
    (hnr : ∀ s, o.call (CallSite.viewCall s) ≠ SubprocOutcome.raise) :
    ∀ L, (viewLoop o d st i L).snd = true := by
  intro L
  induction L with
  | nil => rfl
  | cons s rest ih =>
    rcases ec : o.call (CallSite.viewCall s) with c | _
    · simp [viewLoop, ec, ih]
    · exact absurd ec (hnr s)

/-- Counterexample to C2 as stated: a concrete run in which the
chromosome-renaming stage fails — its `bcftools annotate` subprocess
runs and returns exit code 1 — yet the pipeline continues, completes,
and the process exits with code 0.  (`running_bcftools` calls
`subprocess.run` without `check=True`, so the return code is silently
discarded.) -/
theorem c2_stage_failure_exits_zero :
    renameFailsOracle.call CallSite.annotate = SubprocOutcome.ret 1 ∧
    Event.renamed "data/in.vcf.gz" "chr_map.txt" "out/in.chr_renamed.vcf.gz"
      ∈ (run fixArgs renameFailsOracle).snd ∧
    (run fixArgs renameFailsOracle).fst = ExitStatus.completed ∧
    pyExitCode (run fixArgs renameFailsOracle).fst = 0 :=
  ⟨rfl, by decide, rfl, rfl⟩

/-- C2 (amended): the exit code never reflects the exit codes of the
bcftools stages.  Whenever every subprocess invocation returns (no
OS-level exception), the sample-list query returns 0, the sample list
contains `PharmCAT`, and the input file name parses, the run completes
and the process exits 0 — irrespective of the (possibly failing) exit
codes of the renaming, merging, normalization, splitting, or reporting
commands.  Non-zero exits arise only from raised exceptions (a raising
tabix call gives `sys.exit(1)` with a message naming the file, not the
stage; a raising bcftools call or a missing `PharmCAT` sample escapes
as an uncaught exception). -/
theorem c2_exit_ignores_tool_exit_codes (args : Args) (o : Oracle) (p : String)
    (hstem : obtain_vcf_file_stem args.input_vcf = .ok p)
    (hnr : ∀ site, o.call site ≠ SubprocOutcome.raise)
    (hq0 : o.call CallSite.queryList = SubprocOutcome.ret 0)
    (hph : "PharmCAT" ∈ o.rawSamples) :
    (run args o).fst = ExitStatus.completed ∧ pyExitCode (run args o).fst = 0 := by
  have hns : '/' ∉ p.data := stem_no_slash args.input_vcf p hstem
  have hq1 : '/' ∉ p.data ++ ".chr_renamed".data := by
    intro hm
    rcases List.mem_append.mp hm with hm | hm
    · exact hns hm
    · exact absurd hm (by decide)
  have heq1 : p ++ ".chr_renamed.vcf.gz"
      = (⟨(p.data ++ ".chr_renamed".data) ++ ".vcf.gz".data⟩ : String) := by
    apply String.ext
    show p.data ++ ".chr_renamed.vcf.gz".data
      = (p.data ++ ".chr_renamed".data) ++ ".vcf.gz".data
    rw [List.append_assoc]
    exact congrArg (fun l => p.data ++ l) (by decide)
  have h1 : obtain_vcf_file_stem
      (joinPath args.output_folder (p ++ ".chr_renamed.vcf.gz"))
      = .ok ⟨p.data ++ ".chr_renamed".data⟩ := by
    rw [heq1]
    exact obtain_stem_constructed args.output_folder _ hq1
  have hq2 : '/' ∉ (p.data ++ ".chr_renamed".data) ++ ".pgx_merged".data := by
    intro hm
    rcases List.mem_append.mp hm with hm | hm
    · exact hq1 hm
    · exact absurd hm (by decide)
  have heq2 : (⟨p.data ++ ".chr_renamed".data⟩ : String) ++ ".pgx_merged.vcf.gz"
      = (⟨((p.data ++ ".chr_renamed".data) ++ ".pgx_merged".data)
          ++ ".vcf.gz".data⟩ : String) := by
    apply String.ext
    show (p.data ++ ".chr_renamed".data) ++ ".pgx_merged.vcf.gz".data
      = ((p.data ++ ".chr_renamed".data) ++ ".pgx_merged".data) ++ ".vcf.gz".data
    conv_rhs => rw [List.append_assoc]
    exact congrArg (fun l => (p.data ++ ".chr_renamed".data) ++ l) (by decide)
  have h2 : obtain_vcf_file_stem (joinPath args.output_folder
      ((⟨p.data ++ ".chr_renamed".data⟩ : String) ++ ".pgx_merged.vcf.gz"))
      = .ok ⟨(p.data ++ ".chr_renamed".data) ++ ".pgx_merged".data⟩ := by
    rw [heq2]
    exact obtain_stem_constructed args.output_folder _ hq2
  have hcall : ∀ site, ∃ c, o.call site = SubprocOutcome.ret c := by
    intro site
    rcases hc : o.call site with c | _
    · exact ⟨c, rfl⟩
    · exact absurd hc (hnr site)
  obtain ⟨cA, hA⟩ := hcall CallSite.annotate
  obtain ⟨cTR, hTR⟩ := hcall CallSite.tabixRenamed
  obtain ⟨cM, hM⟩ := hcall CallSite.mergeCall
  obtain ⟨cTM, hTM⟩ := hcall CallSite.tabixMerged
  obtain ⟨cN, hN⟩ := hcall CallSite.normCall
  obtain ⟨cTN, hTN⟩ := hcall CallSite.tabixNormalized
  obtain ⟨cI, hI⟩ := hcall CallSite.isecCall
  rcases pyListRemove_mem "PharmCAT" o.rawSamples hph with ⟨l1, l2, _, _, hsmp⟩
  have hvl : ∀ d st i L, (viewLoop o d st i L).snd = true :=
    fun d st i L =>
      viewLoop_snd_of_no_raise o d st i (fun s => hnr (CallSite.viewCall s)) L
  have key : ∀ t0, (runAfterIndex args o t0).fst = ExitStatus.completed := by
    intro t0
    simp [runAfterIndex, hstem, h1, h2, hA, hTR, hM, hTM, hN, hTN, hq0, hI,
      obtain_vcf_sample_list, hsmp, tabixRaised, hvl]
  suffices hc : (run args o).fst = ExitStatus.completed by
    exact ⟨hc, by rw [hc]; rfl⟩
  cases hii : args.inputIndexExists
  · obtain ⟨cTI, hTI⟩ := hcall CallSite.tabixInput
    rw [show run args o = runAfterIndex args o [Event.tabix args.input_vcf] from by
      simp [run, hii, hTI]]
    exact key _
  · rw [show run args o = runAfterIndex args o [] from by simp [run, hii]]
    exact key _

/-- Witness for C2's amended exit-code behaviour at the concrete run
whose renaming stage fails with exit code 1. -/
theorem c2_exit_ignores_tool_exit_codes_witness :
    (run fixArgs renameFailsOracle).fst = ExitStatus.completed ∧
    pyExitCode (run fixArgs renameFailsOracle).fst = 0 :=
  c2_exit_ignores_tool_exit_codes fixArgs renameFailsOracle "in" rfl
    (by intro site; cases site <;> simp [renameFailsOracle]) rfl (by decide)

end PharmCAT
